import Mathlib

/-!
Shallow embedding of the markdown-rendering utility core of mdBook
(`src/utils/mod.rs`): the anchor-id normalizer, the curly-quote converter,
the link destination resolver `fix` together with the regexes `SCHEME_LINK`
and `MD_LINK`, the HTML attribute fixer `fix_html`, and the per-event
adjuster `adjust_links`.

Strings are modelled as `List Char` (Rust strings are sequences of `char`s
for all the operations used here; every operation in this file works
char-by-char exactly as the source does byte-precisely on ASCII).  The
filesystem existence probe `PathBuf::exists` is an oracle
`fs : List Char → Bool`, and Rust's Unicode-table driven
`char::is_alphanumeric` is an oracle `isAlnum : Char → Bool` (it lives in
the Rust standard library, outside this repository); `char::is_whitespace`
is the 25-codepoint Unicode `White_Space` class, reproduced exactly.
A Rust panic (`expect`/`unwrap` failure) is modelled by `Option.none`.
-/

namespace MdBook

/-- The straight single-quote character `'` (U+0027). -/
def squote : Char := Char.ofNat 39

/-- The straight double-quote character `"` (U+0022). -/
def dquote : Char := Char.ofNat 34

/-- Rust `char::is_whitespace`: the Unicode `White_Space` property, which
consists exactly of U+0009–U+000D, U+0020, U+0085, U+00A0, U+1680,
U+2000–U+200A, U+2028, U+2029, U+202F, U+205F and U+3000. -/
def rustIsWhitespace (c : Char) : Bool :=
  (9 ≤ c.toNat && c.toNat ≤ 13) || c.toNat = 32 || c.toNat = 133 ||
  c.toNat = 160 || c.toNat = 5760 || (8192 ≤ c.toNat && c.toNat ≤ 8202) ||
  c.toNat = 8232 || c.toNat = 8233 || c.toNat = 8239 || c.toNat = 8287 ||
  c.toNat = 12288

/-- Rust `char::is_ascii_whitespace`: space, horizontal tab, line feed,
form feed, carriage return. -/
def isAsciiWhitespace (c : Char) : Bool :=
  c.toNat = 32 || c.toNat = 9 || c.toNat = 10 || c.toNat = 12 || c.toNat = 13

/-- An ASCII uppercase letter `A`–`Z`. -/
def isAsciiUpper (c : Char) : Bool :=
  65 ≤ c.toNat && c.toNat ≤ 90

/-- Rust `char::to_ascii_lowercase`: shift `A`–`Z` by 32, leave every
other character unchanged. -/
def rustToAsciiLowercase (c : Char) : Char :=
  if 65 ≤ c.toNat && c.toNat ≤ 90 then Char.ofNat (c.toNat + 32) else c

/-- The `filter_map` closure of `normalize_id`: keep alphanumeric
characters (per the `isAlnum` oracle standing for Rust's Unicode-aware
`char::is_alphanumeric`), `_` and `-`, ASCII-lowercased; turn each
whitespace character into `-`; drop everything else. -/
def normChar (isAlnum : Char → Bool) (ch : Char) : Option Char :=
  if isAlnum ch || ch == '_' || ch == '-' then some (rustToAsciiLowercase ch)
  else if rustIsWhitespace ch then some '-'
  else none

/-- `normalize_id` from `src/utils/mod.rs`. -/
def normalize_id (isAlnum : Char → Bool) (content : List Char) : List Char :=
  content.filterMap (normChar isAlnum)

/-- Rust `char::is_alphanumeric` restricted to ASCII arguments: digits and
ASCII letters.  On ASCII characters this agrees exactly with the Rust
standard library; it is used to instantiate the `isAlnum` oracle on
concrete ASCII inputs. -/
def asciiAlnum (c : Char) : Bool :=
  (48 ≤ c.toNat && c.toNat ≤ 57) || (65 ≤ c.toNat && c.toNat ≤ 90) ||
  (97 ≤ c.toNat && c.toNat ≤ 122)

/-- `leadsWith pat l` holds when `pat` is an initial segment of `l`
(Rust `str::starts_with` on the pattern). -/
def leadsWith : List Char → List Char → Bool
  | [], _ => true
  | _ :: _, [] => false
  | p :: ps, c :: cs => p == c && leadsWith ps cs

/-- `hasSub pat l` holds when `pat` occurs as a contiguous segment of `l`
(Rust `str::contains`). -/
def hasSub (pat : List Char) : List Char → Bool
  | [] => leadsWith pat []
  | c :: t => leadsWith pat (c :: t) || hasSub pat t

/-- A character of the regex class `[a-z0-9+.-]` used by `SCHEME_LINK`. -/
def isSchemeChar (c : Char) : Bool :=
  (97 ≤ c.toNat && c.toNat ≤ 122) || (48 ≤ c.toNat && c.toNat ≤ 57) ||
  c == '+' || c == '.' || c == '-'

/-- Scan for `[a-z0-9+.-]*:`: a (possibly empty) run of scheme characters
terminated by `:` (`:` itself is not a scheme character, so matching the
starred class greedily or lazily makes no difference). -/
def schemeTail : List Char → Bool
  | [] => false
  | c :: t => if c == ':' then true else if isSchemeChar c then schemeTail t else false

/-- The regex `SCHEME_LINK = ^[a-z][a-z0-9+.-]*:` of `src/utils/mod.rs`,
as an `is_match` test. -/
def SCHEME_LINK (dest : List Char) : Bool :=
  match dest with
  | [] => false
  | c :: t => (97 ≤ c.toNat && c.toNat ≤ 122) && schemeTail t

/-- The literal pattern `.md` of the `MD_LINK` regex. -/
def mdPat : List Char := ['.', 'm', 'd']

/-- The literal `.html` written in place of a matched `.md`. -/
def htmlExt : List Char := ['.', 'h', 't', 'm', 'l']

/-- In the regex `MD_LINK = (?P<link>.*)\.md(?P<anchor>#.*)?`, `k` is a
feasible length for the greedy group `link` at the current position: the
first `k` characters contain no newline (`.` does not match `\n`) and are
immediately followed by the literal `.md`. -/
def validK (t : List Char) (k : Nat) : Bool :=
  (t.take k).all (fun c => !(c == '\n')) && leadsWith mdPat (t.drop k)

/-- Greedy search for the longest feasible `link` length, counting down
from `bound` (the regex engine prefers the longest `.*`). -/
def findFrom (t : List Char) : Nat → Option Nat
  | 0 => if validK t 0 then some 0 else none
  | k + 1 => if validK t (k + 1) then some (k + 1) else findFrom t k

/-- The optional greedy `anchor` group `(?P<anchor>#.*)?` applied to the
text right after the matched `.md`: a `#` captures together with the rest
of its line; anything else leaves the group unmatched (empty). -/
def anchorOf (rest : List Char) : List Char :=
  match rest with
  | '#' :: r => '#' :: r.takeWhile (fun c => !(c == '\n'))
  | _ => []

/-- A match of `MD_LINK` anchored at the current position: the greedy
`link` group together with the optional greedy `anchor` group. -/
def matchAt (t : List Char) : Option (List Char × List Char) :=
  match findFrom t t.length with
  | none => none
  | some k => some (t.take k, anchorOf (t.drop (k + 3)))

/-- `MD_LINK.captures(dest)`: the leftmost-first match of
`(?P<link>.*)\.md(?P<anchor>#.*)?` anywhere in `dest`, returning the
`link` and `anchor` capture groups. -/
def MD_LINK_captures : List Char → Option (List Char × List Char)
  | [] => none
  | c :: t =>
    match matchAt (c :: t) with
    | some r => some r
    | none => MD_LINK_captures t

/-- `md_to_html_link` from `src/utils/mod.rs`: on a capture, emit
`link ++ ".html" ++ anchor` (text of `dest` outside the match is *not*
emitted); with no capture, emit `dest` unchanged.  This is the text the
source function appends to its `fixed_link` buffer. -/
def md_to_html_link (dest : List Char) : List Char :=
  match MD_LINK_captures dest with
  | none => dest
  | some (link, anchor) => link ++ htmlExt ++ anchor

/-- Trailing `/` separators of a path, dropped (mirrors how
`std::path::Path` ignores trailing separators). -/
def stripTrailingSlashes (l : List Char) : List Char :=
  (l.reverse.dropWhile (fun c => c == '/')).reverse

/-- `std::path::Path::parent` for Unix-style UTF-8 path strings: `none`
for the empty path and for the root (these are what make the source's
`path.parent().expect("path can't be empty")` panic); otherwise the path
with its last component removed (`""` for a single relative component,
`"/"` when only the root remains). -/
def parentPath (p : List Char) : Option (List Char) :=
  let q := stripTrailingSlashes p
  if q = [] then none
  else
    let t := (q.reverse.dropWhile (fun c => !(c == '/'))).reverse
    if t = [] then some []
    else
      let t2 := stripTrailingSlashes t
      if t2 = [] then some ['/'] else some t2

/-- `dest.starts_with('#')`. -/
def startsWithHash (dest : List Char) : Bool :=
  match dest with
  | c :: _ => c == '#'
  | [] => false

/-- `base.ends_with(".md")`. -/
def endsWithMd (l : List Char) : Bool :=
  leadsWith mdPat (l.drop (l.length - 3))

/-- The fallback-redirect step of `fix`: when a source directory is given
and `src_dir/dest` does not exist but `src_dir/fallback/dest` does, the
link is redirected and the buffer receives the `fallback/` front segment
(`write!(fixed_link, "{}/", fallback_path)`); otherwise nothing. -/
def redirectPre (dest : List Char) (src_dir : Option (List Char))
    (fallback_path : Option (List Char)) (fs : List Char → Bool) :
    Option (List Char) :=
  match src_dir with
  | none => none
  | some sd =>
    if fs (sd ++ '/' :: dest) then none
    else
      match fallback_path with
      | none => none
      | some fb => if fs (sd ++ '/' :: (fb ++ '/' :: dest)) then some (fb ++ ['/']) else none

/-- The link destination resolver `fix` of `src/utils/mod.rs`.  `fs` is the
filesystem-existence oracle (`PathBuf::exists`).  A returned `none` models
the panic of `path.parent().expect("path can't be empty")`, the only
failure point reachable on UTF-8 input. -/
def fix (dest : List Char) (path : Option (List Char))
    (src_dir : Option (List Char)) (fallback_path : Option (List Char))
    (fs : List Char → Bool) : Option (List Char) :=
  if startsWithHash dest then
    match path with
    | some p =>
      some ((if endsWithMd p then p.take (p.length - 3) ++ htmlExt else p) ++ dest)
    | none => some dest
  else if SCHEME_LINK dest then some dest
  else
    let pre := redirectPre dest src_dir fallback_path fs
    match path with
    | none => some (pre.getD [] ++ md_to_html_link dest)
    | some p =>
      match parentPath p with
      | none => none
      | some base =>
        match pre with
        | some r => some (r ++ md_to_html_link dest)
        | none =>
          some ((if base = [] then [] else base ++ ['/']) ++ md_to_html_link dest)

/-- The per-character rewrite of `convert_quotes_to_curly`: straight
quotes become opening curly quotes after whitespace (`pre = true`) and
closing curly quotes otherwise; every other character is unchanged. -/
def convChar (pre : Bool) (c : Char) : Char :=
  if c == squote then (if pre then '‘' else '’')
  else if c == dquote then (if pre then '“' else '”')
  else c

/-- The character scan of `convert_quotes_to_curly`, threading the
`preceded_by_whitespace` flag (updated from the *original* character). -/
def cqcGo (pre : Bool) : List Char → List Char
  | [] => []
  | c :: t => convChar pre c :: cqcGo (rustIsWhitespace c) t

/-- `convert_quotes_to_curly` from `src/utils/mod.rs`; the start of the
text is considered to be whitespace. -/
def convert_quotes_to_curly (original_text : List Char) : List Char :=
  cqcGo true original_text

/-- Positional view of the `preceded_by_whitespace` flag: position `0`
counts as preceded by whitespace, position `j + 1` looks at the original
character at position `j`. -/
def precededByWhitespace (l : List Char) (i : Nat) : Bool :=
  match i with
  | 0 => true
  | j + 1 =>
    match l.get? j with
    | some d => rustIsWhitespace d
    | none => true

/-- `pulldown_cmark::CodeBlockKind`. -/
inductive CodeBlockKind where
  | indented : CodeBlockKind
  | fenced : List Char → CodeBlockKind
deriving DecidableEq

/-- The `pulldown_cmark::Tag` variants this core inspects.  The `Nat` in
`link`/`image` stands for the opaque `LinkType`; `otherTag` stands for the
remaining tag variants (`Paragraph`, `Heading`, …), which the code never
looks inside. -/
inductive Tag where
  | link : Nat → List Char → List Char → Tag
  | image : Nat → List Char → List Char → Tag
  | codeBlock : CodeBlockKind → Tag
  | otherTag : Nat → Tag
deriving DecidableEq

/-- The `pulldown_cmark::Event` variants this core inspects; `otherEvent`
stands for the remaining variants (`Code`, `SoftBreak`, …). -/
inductive Event where
  | start : Tag → Event
  | end_ : Tag → Event
  | text : List Char → Event
  | html : List Char → Event
  | otherEvent : Nat → Event
deriving DecidableEq

/-- The `EventQuoteConverter` state of `src/utils/mod.rs`. -/
structure EventQuoteConverter where
  enabled : Bool
  convert_text : Bool
deriving DecidableEq

/-- `EventQuoteConverter::new`. -/
def EventQuoteConverter.new (enabled : Bool) : EventQuoteConverter :=
  { enabled := enabled, convert_text := true }

/-- `EventQuoteConverter::convert`: returns the updated state together
with the transformed event (`&mut self` is made explicit). -/
def EventQuoteConverter.convert (c : EventQuoteConverter) (e : Event) :
    EventQuoteConverter × Event :=
  if !c.enabled then (c, e)
  else
    match e with
    | .start (.codeBlock _) => ({ c with convert_text := false }, e)
    | .end_ (.codeBlock _) => ({ c with convert_text := true }, e)
    | .text s => if c.convert_text then (c, .text (convert_quotes_to_curly s)) else (c, e)
    | _ => (c, e)

/-- Mapping `EventQuoteConverter::convert` statefully over an event
sequence, as the `.map(|event| converter.convert(event))` stage of
`render_markdown_with_path` does. -/
def runConverter (c : EventQuoteConverter) : List Event → List Event
  | [] => []
  | e :: es =>
    let r := c.convert e
    r.2 :: runConverter r.1 es

/-- The converter state reached after consuming a list of events. -/
def stateAfter (c : EventQuoteConverter) (l : List Event) : EventQuoteConverter :=
  l.foldl (fun st e => (st.convert e).1) c

/-- One step of the "inside a code block" view: a `Start(CodeBlock)`
enters, an `End(CodeBlock)` leaves, anything else preserves the state. -/
def codeFlagUpd (b : Bool) (e : Event) : Bool :=
  match e with
  | .start (.codeBlock _) => true
  | .end_ (.codeBlock _) => false
  | _ => b

/-- Whether the last `CodeBlock` boundary among the events seen so far is
an unclosed `Start` — the "currently inside a code block" view of the
event sequence. -/
def insideCodeAfter (l : List Event) : Bool :=
  l.foldl codeFlagUpd false

/-- The literal `src="` of the `HTML_LINK` regex. -/
def srcPat : List Char := ['s', 'r', 'c', '=', dquote]

/-- The literal `href="` of the `HTML_LINK` regex. -/
def hrefPat : List Char := ['h', 'r', 'e', 'f', '=', dquote]

/-- The capture `([^"]+?)"`: everything up to the next `"` (`valueGo`
accumulates it), failing when there is no closing `"`. -/
def valueGo : List Char → Option (List Char × List Char)
  | [] => none
  | c :: t =>
    if c == dquote then some ([], t)
    else (valueGo t).map (fun vr => (c :: vr.1, vr.2))

/-- The lazy nonempty capture `([^"]+?)` followed by the closing `"`:
requires at least one non-`"` character before the quote. -/
def valueSplit (l : List Char) : Option (List Char × List Char) :=
  match l with
  | [] => none
  | c :: t =>
    if c == dquote then none
    else (valueGo t).map (fun vr => (c :: vr.1, vr.2))

/-- `(?:src|href)="([^"]+?)"` tried at the current position: the literal
attribute marker followed by a nonempty quoted value (on a failed value
the regex engine moves the lazy gap onward, handled by `scanAttr`). -/
def attrHere (l : List Char) : Option (List Char × List Char × List Char) :=
  if leadsWith srcPat l then
    (valueSplit (l.drop 5)).map (fun vr => (srcPat, vr.1, vr.2))
  else if leadsWith hrefPat l then
    (valueSplit (l.drop 6)).map (fun vr => (hrefPat, vr.1, vr.2))
  else none

/-- The scan for `[^>]*?(?:src|href)="([^"]+?)"` after an opening
`<a ` / `<img `: the lazy gap takes the first position where `src="` or
`href="` (with a well-formed nonempty quoted value) matches, never
crossing a `>`.  Returns the text from the gap through the `=`-quote, the
captured value, and the rest after the closing quote. -/
def scanAttr : List Char → Option (List Char × List Char × List Char)
  | [] => none
  | c :: t =>
    match attrHere (c :: t) with
    | some res => some res
    | none =>
      if c == '>' then none
      else (scanAttr t).map (fun gvr => (c :: gvr.1, gvr.2.1, gvr.2.2))

/-- A match of the `HTML_LINK` regex
`(<(?:a|img) [^>]*?(?:src|href)=")([^"]+?)"` anchored at the current
position: group 1 (tag opener through the opening quote), group 2 (the
attribute value) and the rest of the text after the closing quote. -/
def tryMatchHtml (l : List Char) : Option (List Char × List Char × List Char) :=
  match l with
  | '<' :: 'a' :: ' ' :: rest =>
    (scanAttr rest).map (fun gvr => ('<' :: 'a' :: ' ' :: gvr.1, gvr.2.1, gvr.2.2))
  | '<' :: 'i' :: 'm' :: 'g' :: ' ' :: rest =>
    (scanAttr rest).map (fun gvr => ('<' :: 'i' :: 'm' :: 'g' :: ' ' :: gvr.1, gvr.2.1, gvr.2.2))
  | _ => none

/-- `Regex::replace_all` for `HTML_LINK` with the replacement closure
`|caps| caps[1] ++ ff(caps[2]) ++ "\x22"`: scan left to right, replace each
leftmost match, resume after it.  The `skip` counter carries "characters
of the current match still to be consumed", which makes the recursion
structural; `raGo ff l (k+1)` just discards the head (already emitted as
part of a replacement).  `none` propagates a panic of the inner fixer. -/
def raGo (ff : List Char → Option (List Char)) : List Char → Nat → Option (List Char)
  | [], _ => some []
  | _ :: t, skip + 1 => raGo ff t skip
  | c :: t, 0 =>
    match tryMatchHtml (c :: t) with
    | some (g, v, r) =>
      match ff v, raGo ff t ((c :: t).length - r.length - 1) with
      | some fv, some rest => some (g ++ fv ++ dquote :: rest)
      | _, _ => none
    | none => (raGo ff t 0).map (fun x => c :: x)

/-- `HTML_LINK.replace_all(html, …)`. -/
def replaceAllHtml (ff : List Char → Option (List Char)) (l : List Char) :
    Option (List Char) :=
  raGo ff l 0

/-- `fix_html` from `src/utils/mod.rs`: apply `fix` to each captured
`href`/`src` attribute value of an `<a>`/`<img>` tag. -/
def fix_html (html : List Char) (path : Option (List Char))
    (src_dir : Option (List Char)) (fallback_path : Option (List Char))
    (fs : List Char → Bool) : Option (List Char) :=
  replaceAllHtml (fun v => fix v path src_dir fallback_path fs) html

/-- `adjust_links` from `src/utils/mod.rs`: rewrite the destination of
link/image start tags and of `href`/`src` attributes in raw HTML; leave
every other event unchanged. -/
def adjust_links (event : Event) (path : Option (List Char))
    (src_dir : Option (List Char)) (fallback_path : Option (List Char))
    (fs : List Char → Bool) : Option Event :=
  match event with
  | .start (.link lt dest title) =>
    (fix dest path src_dir fallback_path fs).map (fun d => .start (.link lt d title))
  | .start (.image lt dest title) =>
    (fix dest path src_dir fallback_path fs).map (fun d => .start (.image lt d title))
  | .html h =>
    (fix_html h path src_dir fallback_path fs).map (fun x => .html x)
  | e => some e

/-- C6: a destination matching the URI-scheme prefix regex
`^[a-z][a-z0-9+.-]*:` is returned by `fix` completely unchanged, whatever
the page path, source directory, fallback subpath and filesystem state. -/
theorem fix_scheme_unchanged (dest : List Char) (path src_dir fallback_path : Option (List Char))
    (fs : List Char → Bool) (h : SCHEME_LINK dest = true) :
    fix dest path src_dir fallback_path fs = some dest := by
  cases dest with
  | nil => simp [SCHEME_LINK] at h
  | cons c t =>
    have hc : (c == '#') = false := by
      simp only [SCHEME_LINK, Bool.and_eq_true, decide_eq_true_eq] at h
      simp only [beq_eq_false_iff_ne, ne_eq]
      intro he
      subst he
      have h35 : ('#').toNat = 35 := rfl
      omega
    simp [fix, startsWithHash, hc, h]

/-- C7: for a destination beginning with `#`, `fix` returns the page path
with a trailing `.md` replaced by `.html` followed by the fragment when a
page path is present, and the destination unchanged when it is absent. -/
theorem fix_fragment_link (dest p : List Char) (src_dir fallback_path : Option (List Char))
    (fs : List Char → Bool) (h : startsWithHash dest = true) :
    fix dest (some p) src_dir fallback_path fs =
      some ((if endsWithMd p then p.take (p.length - 3) ++ htmlExt else p) ++ dest) ∧
    fix dest none src_dir fallback_path fs = some dest := by
  constructor <;> simp [fix, h]

/-- C2: for a relative destination missing at `src/dest` but present at
`src/fb/dest`, `fix` returns `fb/` prefixed to the `.md`-rewritten
destination, and the page's parent-directory prefix is *not* applied. -/
theorem fix_fallback_redirect (dest p base src fb : List Char) (fs : List Char → Bool)
    (h1 : startsWithHash dest = false) (h2 : SCHEME_LINK dest = false)
    (h3 : fs (src ++ '/' :: dest) = false)
    (h4 : fs (src ++ '/' :: (fb ++ '/' :: dest)) = true)
    (h5 : parentPath p = some base) :
    fix dest (some p) (some src) (some fb) fs =
      some (fb ++ '/' :: md_to_html_link dest) := by
  simp [fix, h1, h2, redirectPre, h3, h4, h5]

/-- C5 (amended): `fix` returns a result whenever the page path, if
present, has a parent component (is neither empty nor the root); the
original claim of totality for *every* UTF-8 input fails, see
`fix_empty_path_panics`. -/
theorem fix_total_amended (dest : List Char) (path src_dir fallback_path : Option (List Char))
    (fs : List Char → Bool)
    (h : ∀ p, path = some p → (parentPath p).isSome = true) :
    (fix dest path src_dir fallback_path fs).isSome = true := by
  unfold fix
  cases path with
  | none =>
    cases hh : startsWithHash dest <;> cases hs : SCHEME_LINK dest <;> simp [hh, hs]
  | some p =>
    have hp := h p rfl
    obtain ⟨base, hb⟩ := Option.isSome_iff_exists.mp hp
    cases hh : startsWithHash dest <;> cases hs : SCHEME_LINK dest <;>
      simp [hh, hs, hb] <;>
      cases hr : redirectPre dest src_dir fallback_path fs <;> simp [hr]

theorem toNat_ofNat_small (m : Nat) (h : m < 55296) : (Char.ofNat m).toNat = m := by
  have hv : Nat.isValidChar m := Or.inl h
  simp only [Char.ofNat, hv, dif_pos]
  simp [Char.ofNatAux, Char.toNat]
  rfl

theorem low_toNat (c : Char) :
    (rustToAsciiLowercase c).toNat =
      if 65 ≤ c.toNat ∧ c.toNat ≤ 90 then c.toNat + 32 else c.toNat := by
  unfold rustToAsciiLowercase
  by_cases h : 65 ≤ c.toNat ∧ c.toNat ≤ 90
  · have hb : (65 ≤ c.toNat && c.toNat ≤ 90) = true := by
      simp [h.1, h.2]
    rw [if_pos hb, if_pos h]
    exact toNat_ofNat_small _ (by omega)
  · have hb : (65 ≤ c.toNat && c.toNat ≤ 90) = false := by
      rcases Nat.lt_or_ge c.toNat 65 with hlt | hge
      · simp; omega
      · simp; omega
    rw [if_neg (by simp [hb]), if_neg h]

theorem char_eq_of_toNat {a b : Char} (h : a.toNat = b.toNat) : a = b := by
  apply Char.ext
  exact UInt32.ext h

theorem low_idem (c : Char) :
    rustToAsciiLowercase (rustToAsciiLowercase c) = rustToAsciiLowercase c := by
  apply char_eq_of_toNat
  rw [low_toNat (rustToAsciiLowercase c), low_toNat c]
  by_cases h : 65 ≤ c.toNat ∧ c.toNat ≤ 90
  · simp only [if_pos h]
    rw [if_neg (by omega)]
  · simp only [if_neg h]

theorem low_not_upper (c : Char) : isAsciiUpper (rustToAsciiLowercase c) = false := by
  have ht := low_toNat c
  unfold isAsciiUpper
  rw [ht]
  split <;> simp <;> omega

theorem asciiWs_imp_rustWs (c : Char) (h : isAsciiWhitespace c = true) :
    rustIsWhitespace c = true := by
  unfold isAsciiWhitespace at h
  unfold rustIsWhitespace
  simp only [Bool.or_eq_true, decide_eq_true_eq, Bool.and_eq_true] at h ⊢
  omega

theorem low_not_asciiWs (c : Char) (h : rustIsWhitespace c = false) :
    isAsciiWhitespace (rustToAsciiLowercase c) = false := by
  have ht := low_toNat c
  unfold isAsciiWhitespace
  rw [ht]
  unfold rustIsWhitespace at h
  simp only [Bool.or_eq_false_iff, Bool.and_eq_false_iff, decide_eq_false_iff_not] at h
  simp only [Bool.or_eq_false_iff, decide_eq_false_iff_not]
  split <;> omega

/-- C4 (amended): the output of `normalize_id` contains no ASCII
whitespace, no uppercase ASCII letter, and only alphanumerics, `_` and
`-`; each whitespace character of the input becomes one `-`, so a run of
`n` whitespace characters becomes `n` hyphens (not a single one as the
original claim says, see `normalize_id_double_space`). -/
theorem normalize_id_invariants_amended (isAlnum : Char → Bool) (l : List Char)
    (h1 : ∀ c ∈ l, isAlnum c = true → rustIsWhitespace c = false)
    (h2 : ∀ c ∈ l, isAlnum c = true → isAlnum (rustToAsciiLowercase c) = true) :
    (∀ d ∈ normalize_id isAlnum l, isAsciiWhitespace d = false) ∧
    (∀ d ∈ normalize_id isAlnum l, isAsciiUpper d = false) ∧
    (∀ d ∈ normalize_id isAlnum l, isAlnum d = true ∨ d = '_' ∨ d = '-') ∧
    (isAlnum ' ' = false →
      ∀ n, normalize_id isAlnum (List.replicate n ' ') = List.replicate n '-') := by
  refine ⟨?_, ?_, ?_, ?_⟩
  · intro d hd
    rw [normalize_id, List.mem_filterMap] at hd
    obtain ⟨c, hc, hfc⟩ := hd
    rw [normChar] at hfc
    by_cases hk : (isAlnum c || c == '_' || c == '-') = true
    · rw [if_pos hk] at hfc
      obtain rfl : rustToAsciiLowercase c = d := by injection hfc
      rcases Bool.or_eq_true _ _ |>.mp hk with hk' | hk'
      · rcases Bool.or_eq_true _ _ |>.mp hk' with hk'' | hk''
        · exact low_not_asciiWs c (h1 c hc hk'')
        · obtain rfl : c = '_' := by simpa using hk''
          decide
      · obtain rfl : c = '-' := by simpa using hk'
        decide
    · rw [if_neg hk] at hfc
      by_cases hw : rustIsWhitespace c = true
      · rw [if_pos hw] at hfc
        obtain rfl : '-' = d := by injection hfc
        decide
      · rw [if_neg hw] at hfc
        exact absurd hfc (by simp)
  · intro d hd
    rw [normalize_id, List.mem_filterMap] at hd
    obtain ⟨c, hc, hfc⟩ := hd
    rw [normChar] at hfc
    by_cases hk : (isAlnum c || c == '_' || c == '-') = true
    · rw [if_pos hk] at hfc
      obtain rfl : rustToAsciiLowercase c = d := by injection hfc
      exact low_not_upper c
    · rw [if_neg hk] at hfc
      by_cases hw : rustIsWhitespace c = true
      · rw [if_pos hw] at hfc
        obtain rfl : '-' = d := by injection hfc
        decide
      · rw [if_neg hw] at hfc
        exact absurd hfc (by simp)
  · intro d hd
    rw [normalize_id, List.mem_filterMap] at hd
    obtain ⟨c, hc, hfc⟩ := hd
    rw [normChar] at hfc
    by_cases hk : (isAlnum c || c == '_' || c == '-') = true
    · rw [if_pos hk] at hfc
      obtain rfl : rustToAsciiLowercase c = d := by injection hfc
      rcases Bool.or_eq_true _ _ |>.mp hk with hk' | hk'
      · rcases Bool.or_eq_true _ _ |>.mp hk' with hk'' | hk''
        · exact Or.inl (h2 c hc hk'')
        · obtain rfl : c = '_' := by simpa using hk''
          exact Or.inr (Or.inl (by decide))
      · obtain rfl : c = '-' := by simpa using hk'
        exact Or.inr (Or.inr (by decide))
    · rw [if_neg hk] at hfc
      by_cases hw : rustIsWhitespace c = true
      · rw [if_pos hw] at hfc
        obtain rfl : '-' = d := by injection hfc
        exact Or.inr (Or.inr rfl)
      · rw [if_neg hw] at hfc
        exact absurd hfc (by simp)
  · intro hsp n
    induction n with
    | zero => rfl
    | succ k ih =>
      rw [List.replicate_succ, List.replicate_succ, normalize_id, List.filterMap_cons]
      rw [normalize_id] at ih
      rw [ih]
      have hsp2 : normChar isAlnum ' ' = some '-' := by
        rw [normChar, if_neg (by simp [hsp]), if_pos (by decide)]
      rw [hsp2]


theorem normalize_id_cons (isAlnum : Char → Bool) (c : Char) (t : List Char) :
    normalize_id isAlnum (c :: t) =
      match normChar isAlnum c with
      | none => normalize_id isAlnum t
      | some b => b :: normalize_id isAlnum t := by
  rw [normalize_id, List.filterMap_cons]
  cases normChar isAlnum c <;> rfl

/-- C9: `normalize_id` is idempotent (the hypothesis is the Unicode fact
that ASCII-lowercasing preserves `char::is_alphanumeric`, required of the
alphanumeric oracle only on the input's characters). -/
theorem normalize_id_idempotent (isAlnum : Char → Bool) (l : List Char)
    (h2 : ∀ c ∈ l, isAlnum c = true → isAlnum (rustToAsciiLowercase c) = true) :
    normalize_id isAlnum (normalize_id isAlnum l) = normalize_id isAlnum l := by
  induction l with
  | nil => rfl
  | cons c t ih =>
    have h2c := h2 c (List.mem_cons_self c t)
    have iht := ih (fun x hx hax => h2 x (List.mem_cons_of_mem c hx) hax)
    rw [normalize_id_cons isAlnum c t]
    by_cases hk : (isAlnum c || c == '_' || c == '-') = true
    · have hc1 : normChar isAlnum c = some (rustToAsciiLowercase c) := by
        rw [normChar, if_pos hk]
      have hkeep : normChar isAlnum (rustToAsciiLowercase c) =
          some (rustToAsciiLowercase c) := by
        rcases (Bool.or_eq_true _ _).mp hk with hk' | hk'
        · rcases (Bool.or_eq_true _ _).mp hk' with hk'' | hk''
          · rw [normChar, if_pos (by simp [h2c hk''])]
            rw [low_idem]
          · obtain rfl : c = '_' := by simpa using hk''
            have hlow : rustToAsciiLowercase '_' = '_' := by decide
            rw [hlow, normChar, if_pos (by simp), hlow]
        · obtain rfl : c = '-' := by simpa using hk'
          have hlow : rustToAsciiLowercase '-' = '-' := by decide
          rw [hlow, normChar, if_pos (by simp), hlow]
      rw [hc1]
      rw [normalize_id_cons isAlnum (rustToAsciiLowercase c) (normalize_id isAlnum t)]
      rw [hkeep, iht]
    · have hc1 : normChar isAlnum c =
          if rustIsWhitespace c then some '-' else none := by
        rw [normChar, if_neg hk]
      rw [hc1]
      by_cases hw : rustIsWhitespace c = true
      · rw [if_pos hw]
        rw [normalize_id_cons isAlnum '-' (normalize_id isAlnum t)]
        have hdash : normChar isAlnum '-' = some '-' := by
          rw [normChar, if_pos (by simp)]
          decide
        rw [hdash, iht]
      · rw [if_neg hw]
        exact iht

theorem fix_scheme_unchanged_witness :
    fix ['h','t','t','p','s',':','/','/','x'] (some ['p','.','m','d']) (some ['s'])
      (some ['f','b']) (fun _ => true) = some ['h','t','t','p','s',':','/','/','x'] :=
  fix_scheme_unchanged _ _ _ _ _ (by decide)

theorem fix_fragment_link_witness :
    fix ['#','x'] (some ['p','.','m','d']) none none (fun _ => false) =
      some ((if endsWithMd ['p','.','m','d'] then
          (['p','.','m','d'] : List Char).take ((['p','.','m','d'] : List Char).length - 3) ++ htmlExt
        else ['p','.','m','d']) ++ ['#','x']) ∧
    fix ['#','x'] none none none (fun _ => false) = some ['#','x'] :=
  fix_fragment_link _ _ _ _ _ (by decide)

theorem fix_fallback_redirect_witness :
    fix ['c','h','.','m','d'] (some ['d','/','p','.','m','d']) (some ['s']) (some ['f','b'])
      (fun l => l == ['s','/','f','b','/','c','h','.','m','d']) =
      some (['f','b'] ++ '/' :: md_to_html_link ['c','h','.','m','d']) :=
  fix_fallback_redirect _ _ ['d'] _ _ _ (by decide) (by decide) (by decide) (by decide)
    (by decide)

/-- C5 counterexample: with the empty (UTF-8) page path and a relative
destination, `fix` reaches `path.parent().expect("path can't be empty")`
and panics instead of returning a result. -/
theorem fix_empty_path_panics :
    fix ['a','.','m','d'] (some []) none none (fun _ => false) = none := by
  decide

theorem fix_total_amended_witness :
    (fix ['a','.','m','d'] none none none (fun _ => false)).isSome = true :=
  fix_total_amended _ _ _ _ _ (fun _ hp => nomatch hp)

/-- C4 counterexample: two consecutive spaces produce two hyphens, not
the single hyphen the claim requires. -/
theorem normalize_id_double_space :
    normalize_id asciiAlnum ['a',' ',' ','b'] = ['a','-','-','b'] ∧
    (['a','-','-','b'] : List Char) ≠ ['a','-','b'] := by
  decide

theorem normalize_id_invariants_amended_witness :
    (∀ d ∈ normalize_id asciiAlnum ['M','y',' ','I','d','!'], isAsciiWhitespace d = false) ∧
    (∀ d ∈ normalize_id asciiAlnum ['M','y',' ','I','d','!'], isAsciiUpper d = false) ∧
    (∀ d ∈ normalize_id asciiAlnum ['M','y',' ','I','d','!'],
      asciiAlnum d = true ∨ d = '_' ∨ d = '-') ∧
    (asciiAlnum ' ' = false →
      ∀ n, normalize_id asciiAlnum (List.replicate n ' ') = List.replicate n '-') :=
  normalize_id_invariants_amended asciiAlnum _ (by decide) (by decide)

theorem normalize_id_idempotent_witness :
    normalize_id asciiAlnum (normalize_id asciiAlnum ['M','y',' ','I','d','!']) =
      normalize_id asciiAlnum ['M','y',' ','I','d','!'] :=
  normalize_id_idempotent asciiAlnum _ (by decide)


theorem cqcGo_get (l : List Char) :
    ∀ (b : Bool) (i : Nat) (c : Char), l.get? i = some c →
      (cqcGo b l).get? i =
        some (convChar (match i with
          | 0 => b
          | j + 1 => match l.get? j with
            | some d => rustIsWhitespace d
            | none => true) c) := by
  induction l with
  | nil => intro b i c h; simp at h
  | cons x t ih =>
    intro b i c h
    cases i with
    | zero =>
      simp only [List.get?_cons_zero, Option.some.injEq] at h
      subst h
      rfl
    | succ j =>
      rw [List.get?_cons_succ] at h
      rw [cqcGo, List.get?_cons_succ]
      rw [ih (rustIsWhitespace x) j c h]
      cases j with
      | zero => rfl
      | succ k => rfl

/-- C8: with conversion active, each straight quote is rewritten according
to whether the immediately preceding character of the same text run (the
run start counting as whitespace) was whitespace, and every other
character is passed through unchanged — `convChar` is exactly that
per-character mapping. -/
theorem convert_quotes_characterization (l : List Char) (i : Nat) (c : Char)
    (h : l.get? i = some c) :
    (convert_quotes_to_curly l).get? i =
      some (convChar (precededByWhitespace l i) c) := by
  rw [convert_quotes_to_curly, cqcGo_get l true i c h]
  cases i with
  | zero => rfl
  | succ j => rfl

theorem convert_quotes_characterization_witness :
    (convert_quotes_to_curly [squote, 'x', ' ', squote]).get? 3 =
      some (convChar (precededByWhitespace [squote, 'x', ' ', squote] 3) squote) :=
  convert_quotes_characterization _ _ _ (by decide)

theorem runConverter_get (l : List Event) :
    ∀ (st : EventQuoteConverter) (i : Nat) (e : Event), l.get? i = some e →
      (runConverter st l).get? i = some ((stateAfter st (l.take i)).convert e).2 := by
  induction l with
  | nil => intro st i e h; simp at h
  | cons x t ih =>
    intro st i e h
    cases i with
    | zero =>
      simp only [List.get?_cons_zero, Option.some.injEq] at h
      subst h
      rfl
    | succ j =>
      rw [List.get?_cons_succ] at h
      rw [runConverter, List.get?_cons_succ]
      rw [ih (st.convert x).1 j e h]
      rfl

theorem stateAfter_enabled (l : List Event) :
    ∀ b : Bool, stateAfter ⟨true, b⟩ l = ⟨true, !(l.foldl codeFlagUpd (!b))⟩ := by
  induction l with
  | nil => intro b; simp [stateAfter]
  | cons x t ih =>
    intro b
    simp only [stateAfter, List.foldl_cons]
    have hx : (EventQuoteConverter.convert ⟨true, b⟩ x).1 = ⟨true, !(codeFlagUpd (!b) x)⟩ := by
      cases x with
      | start tg => cases tg <;> simp [EventQuoteConverter.convert, codeFlagUpd]
      | end_ tg => cases tg <;> simp [EventQuoteConverter.convert, codeFlagUpd]
      | text s => by_cases hb : b <;> simp [EventQuoteConverter.convert, codeFlagUpd, hb]
      | html s => simp [EventQuoteConverter.convert, codeFlagUpd]
      | otherEvent n => simp [EventQuoteConverter.convert, codeFlagUpd]
    rw [hx]
    have hih := ih (!(codeFlagUpd (!b) x))
    simp only [stateAfter] at hih
    rw [hih, Bool.not_not]


/-- C3: with curly-quote conversion enabled, the converter starts with
conversion active, every `Text` event that sits inside a code block (per
the `Start`/`End` boundaries seen before it) passes through unchanged, and
every `Text` event outside a code block is quote-converted — in
particular conversion resumes right after an `End(CodeBlock)`. -/
theorem quote_converter_skips_code_blocks :
    (EventQuoteConverter.new true).convert_text = true ∧
    ∀ (evs : List Event) (i : Nat) (s : List Char),
      evs.get? i = some (.text s) →
      (runConverter (EventQuoteConverter.new true) evs).get? i =
        some (if insideCodeAfter (evs.take i) then Event.text s
          else Event.text (convert_quotes_to_curly s)) := by
  constructor
  · rfl
  · intro evs i s h
    rw [runConverter_get evs (EventQuoteConverter.new true) i _ h]
    have hst := stateAfter_enabled (evs.take i) true
    rw [show EventQuoteConverter.new true = (⟨true, true⟩ : EventQuoteConverter) from rfl, hst]
    rw [show (!true) = false from rfl]
    rw [show (evs.take i).foldl codeFlagUpd false = insideCodeAfter (evs.take i) from rfl]
    cases hic : insideCodeAfter (evs.take i) with
    | true => simp [EventQuoteConverter.convert]
    | false => simp [EventQuoteConverter.convert]

theorem quote_converter_skips_code_blocks_witness :
    (EventQuoteConverter.new true).convert_text = true ∧
    (runConverter (EventQuoteConverter.new true)
        [Event.start (Tag.codeBlock CodeBlockKind.indented),
         Event.text [squote, 'a', squote],
         Event.end_ (Tag.codeBlock CodeBlockKind.indented),
         Event.text [squote, 'b', squote]]).get? 1 =
      some (if insideCodeAfter
          (([Event.start (Tag.codeBlock CodeBlockKind.indented),
             Event.text [squote, 'a', squote],
             Event.end_ (Tag.codeBlock CodeBlockKind.indented),
             Event.text [squote, 'b', squote]]).take 1)
        then Event.text [squote, 'a', squote]
        else Event.text (convert_quotes_to_curly [squote, 'a', squote])) :=
  ⟨quote_converter_skips_code_blocks.1,
    quote_converter_skips_code_blocks.2 _ 1 _ (by decide)⟩


theorem findFrom_some (t : List Char) (m : Nat) :
    ∀ bound, m ≤ bound → validK t m = true →
      (∀ j, m < j → j ≤ bound → validK t j = false) → findFrom t bound = some m := by
  intro bound
  induction bound with
  | zero =>
    intro hm hv _
    obtain rfl : m = 0 := Nat.le_zero.mp hm
    rw [findFrom, if_pos hv]
  | succ k ihk =>
    intro hm hv hj
    by_cases hmk : m = k + 1
    · subst hmk
      rw [findFrom, if_pos hv]
    · have hmk' : m ≤ k := by omega
      have hk1 : validK t (k + 1) = false := hj (k + 1) (by omega) (by omega)
      rw [findFrom, if_neg (by simp [hk1])]
      exact ihk hmk' hv (fun j h1 h2 => hj j h1 (by omega))

theorem findFrom_none (t : List Char) :
    ∀ bound, (∀ j, j ≤ bound → validK t j = false) → findFrom t bound = none := by
  intro bound
  induction bound with
  | zero =>
    intro hj
    rw [findFrom, if_neg (by simp [hj 0 (Nat.le_refl 0)])]
  | succ k ihk =>
    intro hj
    rw [findFrom, if_neg (by simp [hj (k + 1) (Nat.le_refl _)])]
    exact ihk (fun j h => hj j (by omega))

theorem leadsWith_mdPat_cons (r : List Char) :
    leadsWith mdPat ('.' :: 'm' :: 'd' :: r) = true := by
  simp [leadsWith, mdPat]

theorem hasSub_drop (p l : List Char) (h : hasSub p l = false) :
    ∀ i, leadsWith p (l.drop i) = false := by
  induction l with
  | nil =>
    intro i
    rw [List.drop_nil]
    rw [hasSub] at h
    exact h
  | cons c t ih =>
    rw [hasSub, Bool.or_eq_false_iff] at h
    intro i
    cases i with
    | zero => exact h.1
    | succ j => exact ih h.2 j

theorem validK_false_of_no_md (t : List Char) (h : hasSub mdPat t = false) (k : Nat) :
    validK t k = false := by
  rw [validK, hasSub_drop mdPat t h k, Bool.and_false]

theorem matchAt_none_of_no_md (t : List Char) (h : hasSub mdPat t = false) :
    matchAt t = none := by
  rw [matchAt, findFrom_none t t.length (fun j _ => validK_false_of_no_md t h j)]

theorem MD_LINK_captures_none (s : List Char) (h : hasSub mdPat s = false) :
    MD_LINK_captures s = none := by
  induction s with
  | nil => rfl
  | cons c t ih =>
    have h2 : hasSub mdPat t = false := by
      rw [hasSub, Bool.or_eq_false_iff] at h
      exact h.2
    rw [MD_LINK_captures, matchAt_none_of_no_md (c :: t) h]
    exact ih h2

theorem findFrom_append_md (s rest : List Char)
    (hs : s.all (fun c => !(c == '\n')) = true)
    (hrest : hasSub mdPat rest = false) :
    findFrom (s ++ '.' :: 'm' :: 'd' :: rest)
      (s ++ '.' :: 'm' :: 'd' :: rest).length = some s.length := by
  apply findFrom_some
  · simp [List.length_append]
  · rw [validK, List.take_left, List.drop_left, hs, leadsWith_mdPat_cons, Bool.and_self]
  · intro j h1 h2
    have hj3 : j = s.length + (j - s.length) := by omega
    rw [validK]
    rw [show (s ++ '.' :: 'm' :: 'd' :: rest).drop j =
        ('.' :: 'm' :: 'd' :: rest).drop (j - s.length) from by
      conv_lhs => rw [hj3]
      exact List.drop_append _]
    rcases hd : j - s.length with _ | _ | _ | d
    · omega
    · simp [leadsWith, mdPat]
    · simp [leadsWith, mdPat]
    · rw [show ('.' :: 'm' :: 'd' :: rest).drop (d + 1 + 1 + 1) = rest.drop d from rfl]
      rw [hasSub_drop mdPat rest hrest d, Bool.and_false]

theorem MD_LINK_captures_of_matchAt (l : List Char) (r : List Char × List Char)
    (h : matchAt l = some r) : MD_LINK_captures l = some r := by
  cases l with
  | nil => simp [matchAt, findFrom, validK, leadsWith, mdPat] at h
  | cons c t => rw [MD_LINK_captures, h]

theorem MD_LINK_captures_append (s rest : List Char)
    (hs : s.all (fun c => !(c == '\n')) = true)
    (hrest : hasSub mdPat rest = false) :
    MD_LINK_captures (s ++ '.' :: 'm' :: 'd' :: rest) = some (s, anchorOf rest) := by
  apply MD_LINK_captures_of_matchAt
  rw [matchAt, findFrom_append_md s rest hs hrest]
  show some ((s ++ '.' :: 'm' :: 'd' :: rest).take s.length,
    anchorOf ((s ++ '.' :: 'm' :: 'd' :: rest).drop (s.length + 3))) = _
  rw [List.take_left, List.drop_append 3]
  rfl

/-- C1 counterexample: the destination `foo.mdx` contains `.md` not as a
final extension, yet `md_to_html_link` rewrites it (to `foo.html`,
dropping the `x`) instead of returning it unchanged: the `MD_LINK` regex
is not anchored at the end of the string. -/
theorem md_link_mdx_rewritten :
    md_to_html_link ['f','o','o','.','m','d','x'] = ['f','o','o','.','h','t','m','l'] ∧
    (['f','o','o','.','h','t','m','l'] : List Char) ≠ ['f','o','o','.','m','d','x'] := by
  decide

/-- C1 (amended): a trailing `.md` (optionally followed by a `#` fragment)
is rewritten to `.html` with the fragment preserved, and a destination not
containing the substring `.md` at all (e.g. `foo.html#phantomdata`) is
returned unchanged; but a destination where `.md` occurs elsewhere is
*also* rewritten — `.md` followed by any non-`#` character becomes
`.html` with that trailing text dropped (`foo.mdx` gives `foo.html`). -/
theorem md_link_rewrite_amended :
    (∀ s : List Char, s.all (fun c => !(c == '\n')) = true →
      md_to_html_link (s ++ mdPat) = s ++ htmlExt) ∧
    (∀ s f : List Char, s.all (fun c => !(c == '\n')) = true →
      f.all (fun c => !(c == '\n')) = true → hasSub mdPat f = false →
      md_to_html_link (s ++ mdPat ++ '#' :: f) = s ++ htmlExt ++ '#' :: f) ∧
    (∀ s : List Char, hasSub mdPat s = false → md_to_html_link s = s) ∧
    (∀ (s : List Char) (c : Char), s.all (fun x => !(x == '\n')) = true →
      (c == '#') = false → md_to_html_link (s ++ mdPat ++ [c]) = s ++ htmlExt) := by
  refine ⟨?_, ?_, ?_, ?_⟩
  · intro s hs
    rw [show s ++ mdPat = s ++ '.' :: 'm' :: 'd' :: ([] : List Char) from by simp [mdPat]]
    rw [md_to_html_link, MD_LINK_captures_append s [] hs (by decide)]
    show s ++ htmlExt ++ anchorOf [] = s ++ htmlExt
    rw [show anchorOf [] = [] from rfl, List.append_nil]
  · intro s f hs hf hsub
    have hrest : hasSub mdPat ('#' :: f) = false := by
      rw [hasSub, Bool.or_eq_false_iff]
      exact ⟨by simp [leadsWith, mdPat], hsub⟩
    rw [show s ++ mdPat ++ '#' :: f = s ++ '.' :: 'm' :: 'd' :: ('#' :: f) from by
      simp [mdPat]]
    rw [md_to_html_link, MD_LINK_captures_append s ('#' :: f) hs hrest]
    show s ++ htmlExt ++ anchorOf ('#' :: f) = _
    rw [show anchorOf ('#' :: f) = '#' :: f.takeWhile (fun c => !(c == '\n')) from rfl]
    rw [List.takeWhile_eq_self_iff.mpr (List.all_eq_true.mp hf)]
  · intro s hsub
    rw [md_to_html_link, MD_LINK_captures_none s hsub]
  · intro s c hs hc
    have hrest : hasSub mdPat [c] = false := by
      simp [hasSub, leadsWith, mdPat]
    rw [show s ++ mdPat ++ [c] = s ++ '.' :: 'm' :: 'd' :: [c] from by simp [mdPat]]
    rw [md_to_html_link, MD_LINK_captures_append s [c] hs hrest]
    show s ++ htmlExt ++ anchorOf [c] = s ++ htmlExt
    have hanch : anchorOf [c] = [] := by
      unfold anchorOf
      split
      · rename_i r heq
        injection heq with h1 h2
        rw [h1] at hc
        simp at hc
      · rfl
    rw [hanch, List.append_nil]

theorem md_link_rewrite_amended_witness :
    md_to_html_link (['e','x'] ++ mdPat) = ['e','x'] ++ htmlExt ∧
    md_to_html_link (['e','x'] ++ mdPat ++ '#' :: ['a','n']) =
      ['e','x'] ++ htmlExt ++ '#' :: ['a','n'] ∧
    md_to_html_link ['f','o','o','.','h','t','m','l','#','p','d'] =
      ['f','o','o','.','h','t','m','l','#','p','d'] ∧
    md_to_html_link (['f','o','o'] ++ mdPat ++ ['x']) = ['f','o','o'] ++ htmlExt :=
  ⟨md_link_rewrite_amended.1 _ (by decide),
   md_link_rewrite_amended.2.1 _ _ (by decide) (by decide) (by decide),
   md_link_rewrite_amended.2.2.1 _ (by decide),
   md_link_rewrite_amended.2.2.2 _ _ (by decide) (by decide)⟩


theorem leadsWith_decomp (p : List Char) :
    ∀ l, leadsWith p l = true → l = p ++ l.drop p.length := by
  induction p with
  | nil => intro l _; rfl
  | cons x ps ih =>
    intro l h
    cases l with
    | nil => simp [leadsWith] at h
    | cons c cs =>
      rw [leadsWith, Bool.and_eq_true] at h
      obtain rfl : x = c := by simpa using h.1
      rw [show (x :: ps).length = ps.length + 1 from rfl]
      rw [show (x :: cs).drop (ps.length + 1) = cs.drop ps.length from rfl]
      rw [show x :: ps ++ cs.drop ps.length = x :: (ps ++ cs.drop ps.length) from rfl]
      rw [← ih cs h.2]

theorem leadsWith_self_append (p l : List Char) : leadsWith p (p ++ l) = true := by
  induction p with
  | nil => rfl
  | cons x ps ih => simp [leadsWith, ih]

theorem valueGo_decomp (l : List Char) :
    ∀ v r, valueGo l = some (v, r) → l = v ++ dquote :: r := by
  induction l with
  | nil => intro v r h; simp [valueGo] at h
  | cons c t ih =>
    intro v r h
    rw [valueGo] at h
    by_cases hc : (c == dquote) = true
    · rw [if_pos hc] at h
      obtain rfl : c = dquote := by simpa using hc
      simp only [Option.some.injEq, Prod.mk.injEq] at h
      obtain ⟨rfl, rfl⟩ := h
      rfl
    · rw [if_neg hc] at h
      cases hvg : valueGo t with
      | none => rw [hvg] at h; simp at h
      | some vr =>
        obtain ⟨v1, r1⟩ := vr
        rw [hvg] at h
        simp at h
        obtain ⟨rfl, rfl⟩ := h
        rw [show c :: v1 ++ dquote :: r1 = c :: (v1 ++ dquote :: r1) from rfl]
        rw [← ih v1 r1 hvg]

theorem valueSplit_decomp (l v r : List Char) (h : valueSplit l = some (v, r)) :
    l = v ++ dquote :: r := by
  cases l with
  | nil => simp [valueSplit] at h
  | cons c t =>
    rw [valueSplit] at h
    by_cases hc : (c == dquote) = true
    · rw [if_pos hc] at h; simp at h
    · rw [if_neg hc] at h
      cases hvg : valueGo t with
      | none => rw [hvg] at h; simp at h
      | some vr =>
        obtain ⟨v1, r1⟩ := vr
        rw [hvg] at h
        simp at h
        obtain ⟨rfl, rfl⟩ := h
        rw [show c :: v1 ++ dquote :: r1 = c :: (v1 ++ dquote :: r1) from rfl]
        rw [← valueGo_decomp t v1 r1 hvg]

theorem attrHere_decomp (l g v r : List Char) (h : attrHere l = some (g, v, r)) :
    l = g ++ v ++ dquote :: r := by
  rw [attrHere] at h
  by_cases hs : leadsWith srcPat l = true
  · rw [if_pos hs] at h
    cases hvs : valueSplit (l.drop 5) with
    | none => rw [hvs] at h; simp at h
    | some vr =>
      obtain ⟨v1, r1⟩ := vr
      rw [hvs] at h
      simp at h
      obtain ⟨rfl, rfl, rfl⟩ := h
      have hd := leadsWith_decomp srcPat l hs
      rw [show srcPat.length = 5 from rfl] at hd
      rw [valueSplit_decomp (l.drop 5) v1 r1 hvs] at hd
      rw [hd, List.append_assoc]
  · rw [if_neg hs] at h
    by_cases hh : leadsWith hrefPat l = true
    · rw [if_pos hh] at h
      cases hvs : valueSplit (l.drop 6) with
      | none => rw [hvs] at h; simp at h
      | some vr =>
        obtain ⟨v1, r1⟩ := vr
        rw [hvs] at h
        simp at h
        obtain ⟨rfl, rfl, rfl⟩ := h
        have hd := leadsWith_decomp hrefPat l hh
        rw [show hrefPat.length = 6 from rfl] at hd
        rw [valueSplit_decomp (l.drop 6) v1 r1 hvs] at hd
        rw [hd, List.append_assoc]
    · rw [if_neg hh] at h
      simp at h

theorem scanAttr_decomp (l : List Char) :
    ∀ g v r, scanAttr l = some (g, v, r) → l = g ++ v ++ dquote :: r := by
  induction l with
  | nil => intro g v r h; simp [scanAttr] at h
  | cons c t ih =>
    intro g v r h
    rw [scanAttr] at h
    cases hah : attrHere (c :: t) with
    | some res =>
      rw [hah] at h
      obtain rfl : res = (g, v, r) := by simpa using h
      exact attrHere_decomp _ g v r hah
    | none =>
      rw [hah] at h
      by_cases hc : (c == '>') = true
      · rw [if_pos hc] at h; simp at h
      · rw [if_neg hc] at h
        cases hsc : scanAttr t with
        | none => rw [hsc] at h; simp at h
        | some gvr =>
          obtain ⟨g1, v1, r1⟩ := gvr
          rw [hsc] at h
          simp at h
          obtain ⟨rfl, rfl, rfl⟩ := h
          rw [show c :: g1 ++ v1 ++ dquote :: r1 =
            c :: (g1 ++ v1 ++ dquote :: r1) from rfl]
          rw [← ih g1 v1 r1 hsc]

theorem tryMatchHtml_decomp (c : Char) (t g v r : List Char)
    (h : tryMatchHtml (c :: t) = some (g, v, r)) :
    ∃ g2, g = c :: g2 ∧ t = g2 ++ v ++ dquote :: r := by
  unfold tryMatchHtml at h
  split at h
  · rename_i rest heq
    injection heq with hc ht
    cases hsc : scanAttr rest with
    | none => rw [hsc] at h; simp at h
    | some gvr =>
      obtain ⟨g1, v1, r1⟩ := gvr
      rw [hsc] at h
      simp at h
      obtain ⟨rfl, rfl, rfl⟩ := h
      refine ⟨'a' :: ' ' :: g1, by rw [hc], ?_⟩
      rw [ht]
      rw [show 'a' :: ' ' :: g1 ++ v1 ++ dquote :: r1 =
        'a' :: ' ' :: (g1 ++ v1 ++ dquote :: r1) from rfl]
      rw [← scanAttr_decomp rest g1 v1 r1 hsc]
  · rename_i rest heq
    injection heq with hc ht
    cases hsc : scanAttr rest with
    | none => rw [hsc] at h; simp at h
    | some gvr =>
      obtain ⟨g1, v1, r1⟩ := gvr
      rw [hsc] at h
      simp at h
      obtain ⟨rfl, rfl, rfl⟩ := h
      refine ⟨'i' :: 'm' :: 'g' :: ' ' :: g1, by rw [hc], ?_⟩
      rw [ht]
      rw [show 'i' :: 'm' :: 'g' :: ' ' :: g1 ++ v1 ++ dquote :: r1 =
        'i' :: 'm' :: 'g' :: ' ' :: (g1 ++ v1 ++ dquote :: r1) from rfl]
      rw [← scanAttr_decomp rest g1 v1 r1 hsc]
  · simp at h

theorem tryMatchHtml_eq_none (l : List Char)
    (ha : leadsWith ['<', 'a', ' '] l = false)
    (hi : leadsWith ['<', 'i', 'm', 'g', ' '] l = false) :
    tryMatchHtml l = none := by
  unfold tryMatchHtml
  split
  · simp [leadsWith] at ha
  · simp [leadsWith] at hi
  · rfl

theorem raGo_skip (ff : List Char → Option (List Char)) (x : List Char) :
    ∀ l, raGo ff (x ++ l) x.length = raGo ff l 0 := by
  induction x with
  | nil => intro l; rfl
  | cons c x' ih =>
    intro l
    rw [show ((c :: x') ++ l) = c :: (x' ++ l) from rfl]
    rw [show (c :: x').length = x'.length + 1 from rfl]
    rw [raGo]
    exact ih l

theorem raGo_cons_zero (ff : List Char → Option (List Char)) (c : Char) (t : List Char) :
    raGo ff (c :: t) 0 =
      match tryMatchHtml (c :: t) with
      | some (g, v, r) =>
        match ff v, raGo ff t ((c :: t).length - r.length - 1) with
        | some fv, some rest => some (g ++ fv ++ dquote :: rest)
        | _, _ => none
      | none => (raGo ff t 0).map (fun x => c :: x) := rfl

theorem raGo_nomatch (ff : List Char → Option (List Char)) (l : List Char) :
    hasSub ['<', 'a', ' '] l = false → hasSub ['<', 'i', 'm', 'g', ' '] l = false →
      ∀ k, raGo ff l k = some (l.drop k) := by
  induction l with
  | nil => intro _ _ k; simp [raGo]
  | cons c t ih =>
    intro ha hi k
    rw [hasSub, Bool.or_eq_false_iff] at ha hi
    cases k with
    | succ k' =>
      rw [show raGo ff (c :: t) (k' + 1) = raGo ff t k' from rfl, ih ha.2 hi.2 k']
      rfl
    | zero =>
      rw [raGo_cons_zero, tryMatchHtml_eq_none _ ha.1 hi.1]
      rw [ih ha.2 hi.2 0]
      rfl

theorem raGo_cons_zero_match (ff : List Char → Option (List Char)) (c : Char)
    (t g v r : List Char) (h : tryMatchHtml (c :: t) = some (g, v, r)) :
    raGo ff (c :: t) 0 =
      match ff v, raGo ff t ((c :: t).length - r.length - 1) with
      | some fv, some rest => some (g ++ fv ++ dquote :: rest)
      | _, _ => none := by
  rw [raGo_cons_zero, h]

theorem raGo_id (n : Nat) : ∀ l : List Char, l.length ≤ n →
    ∀ k, raGo (fun v => some v) l k = some (l.drop k) := by
  induction n with
  | zero =>
    intro l hl k
    obtain rfl : l = [] := List.length_eq_zero.mp (Nat.le_zero.mp hl)
    simp [raGo]
  | succ m ihm =>
    intro l hl k
    cases l with
    | nil => simp [raGo]
    | cons c t =>
      have htm : t.length ≤ m := by
        rw [List.length_cons] at hl
        omega
      cases k with
      | succ k' =>
        rw [show raGo (fun v => some v) (c :: t) (k' + 1) =
          raGo (fun v => some v) t k' from rfl]
        rw [ihm t htm k']
        rfl
      | zero =>
        cases hm : tryMatchHtml (c :: t) with
        | none =>
          rw [raGo_cons_zero, hm, ihm t htm 0]
          rfl
        | some gvr =>
          obtain ⟨g, v, r⟩ := gvr
          obtain ⟨g2, rfl, ht2⟩ := tryMatchHtml_decomp c t g v r hm
          rw [raGo_cons_zero_match (fun v => some v) c t (c :: g2) v r hm]
          have hlen : (c :: t).length - r.length - 1 = (g2 ++ v ++ [dquote]).length := by
            rw [List.length_cons, ht2]
            simp [List.length_append]
            omega
          have hrm : r.length ≤ m := by
            rw [ht2] at htm
            simp [List.length_append] at htm
            omega
          rw [hlen]
          rw [show raGo (fun v => some v) t ((g2 ++ v ++ [dquote]).length) =
              raGo (fun v => some v) r 0 from by
            conv_lhs => rw [show t = (g2 ++ v ++ [dquote]) ++ r from by
              rw [ht2]
              simp]
            exact raGo_skip _ _ r]
          rw [ihm r hrm 0]
          show some ((c :: g2) ++ v ++ dquote :: r.drop 0) = some ((c :: t).drop 0)
          rw [List.drop_zero, List.drop_zero, ht2]
          rfl

theorem valueGo_append (v : List Char) :
    ∀ r, v.all (fun c => !(c == dquote)) = true → valueGo (v ++ dquote :: r) = some (v, r) := by
  induction v with
  | nil =>
    intro r _
    rw [List.nil_append, valueGo, if_pos (by simp)]
  | cons c v' ih =>
    intro r h
    rw [List.all_cons, Bool.and_eq_true] at h
    have hc : (c == dquote) = false := by
      have h1 := h.1
      simp only [Bool.not_eq_true'] at h1
      exact h1
    rw [show (c :: v') ++ dquote :: r = c :: (v' ++ dquote :: r) from rfl, valueGo]
    rw [if_neg (by simp [hc])]
    rw [ih r h.2]
    rfl

theorem valueSplit_append (v r : List Char) (hne : v ≠ [])
    (hq : v.all (fun c => !(c == dquote)) = true) :
    valueSplit (v ++ dquote :: r) = some (v, r) := by
  cases v with
  | nil => exact absurd rfl hne
  | cons c v' =>
    rw [List.all_cons, Bool.and_eq_true] at hq
    have hc : (c == dquote) = false := by
      have h1 := hq.1
      simp only [Bool.not_eq_true'] at h1
      exact h1
    rw [show (c :: v') ++ dquote :: r = c :: (v' ++ dquote :: r) from rfl, valueSplit]
    rw [if_neg (by simp [hc])]
    rw [valueGo_append v' r hq.2]
    rfl

theorem attrHere_href (v r : List Char) (hne : v ≠ [])
    (hq : v.all (fun c => !(c == dquote)) = true) :
    attrHere (hrefPat ++ (v ++ dquote :: r)) = some (hrefPat, v, r) := by
  rw [attrHere]
  rw [if_neg (by simp [leadsWith, srcPat, hrefPat])]
  rw [if_pos (leadsWith_self_append hrefPat _)]
  rw [show (hrefPat ++ (v ++ dquote :: r)).drop 6 = v ++ dquote :: r from by
    rw [show (6 : Nat) = hrefPat.length from rfl, List.drop_left]]
  rw [valueSplit_append v r hne hq]
  rfl

theorem scanAttr_href (v r : List Char) (hne : v ≠ [])
    (hq : v.all (fun c => !(c == dquote)) = true) :
    scanAttr (hrefPat ++ (v ++ dquote :: r)) = some (hrefPat, v, r) := by
  show scanAttr ('h' :: 'r' :: 'e' :: 'f' :: '=' :: dquote :: (v ++ dquote :: r)) = _
  rw [scanAttr]
  rw [show ('h' :: 'r' :: 'e' :: 'f' :: '=' :: dquote :: (v ++ dquote :: r)) =
    hrefPat ++ (v ++ dquote :: r) from rfl]
  rw [attrHere_href v r hne hq]

theorem tryMatchHtml_href (v r : List Char) (hne : v ≠ [])
    (hq : v.all (fun c => !(c == dquote)) = true) :
    tryMatchHtml ('<' :: 'a' :: ' ' :: (hrefPat ++ (v ++ dquote :: r))) =
      some ('<' :: 'a' :: ' ' :: hrefPat, v, r) := by
  show (scanAttr (hrefPat ++ (v ++ dquote :: r))).map
    (fun gvr => ('<' :: 'a' :: ' ' :: gvr.1, gvr.2.1, gvr.2.2)) = _
  rw [scanAttr_href v r hne hq]
  rfl

theorem fix_html_href (v v2 : List Char) (path src_dir fallback_path : Option (List Char))
    (fs : List Char → Bool) (hne : v ≠ [])
    (hq : v.all (fun c => !(c == dquote)) = true)
    (hfix : fix v path src_dir fallback_path fs = some v2) :
    fix_html ('<' :: 'a' :: ' ' :: (hrefPat ++ (v ++ dquote :: '>' :: [])))
        path src_dir fallback_path fs =
      some ('<' :: 'a' :: ' ' :: (hrefPat ++ (v2 ++ dquote :: '>' :: []))) := by
  rw [fix_html, replaceAllHtml]
  rw [raGo_cons_zero_match (fun x => fix x path src_dir fallback_path fs) '<'
    ('a' :: ' ' :: (hrefPat ++ (v ++ dquote :: '>' :: []))) ('<' :: 'a' :: ' ' :: hrefPat)
    v ['>'] (tryMatchHtml_href v ['>'] hne hq)]
  show (match fix v path src_dir fallback_path fs,
      raGo (fun x => fix x path src_dir fallback_path fs)
        ('a' :: ' ' :: (hrefPat ++ (v ++ dquote :: '>' :: [])))
        (('<' :: 'a' :: ' ' :: (hrefPat ++ (v ++ dquote :: '>' :: []))).length -
          (['>'] : List Char).length - 1) with
    | some fv, some rest => some (('<' :: 'a' :: ' ' :: hrefPat) ++ fv ++ dquote :: rest)
    | _, _ => none) = _
  rw [hfix]
  rw [show ('<' :: 'a' :: ' ' :: (hrefPat ++ (v ++ dquote :: '>' :: []))).length -
      (['>'] : List Char).length - 1 =
      ('a' :: ' ' :: (hrefPat ++ (v ++ [dquote]))).length from by
    simp [hrefPat, List.length_append]]
  rw [show ('a' :: ' ' :: (hrefPat ++ (v ++ dquote :: '>' :: []))) =
      ('a' :: ' ' :: (hrefPat ++ (v ++ [dquote]))) ++ ['>'] from by simp]
  rw [raGo_skip]
  rw [show raGo (fun x => fix x path src_dir fallback_path fs) ['>'] 0 = some ['>'] from rfl]
  show some (('<' :: 'a' :: ' ' :: hrefPat) ++ v2 ++ dquote :: ['>']) = _
  simp

/-- C10: `adjust_links` changes at most the destination: a link/image
start tag keeps its kind and title with only the destination passed
through `fix`; an `Html` event is rewritten by `fix_html`, which is the
identity on fragments containing no `<a ` / `<img ` opener, reconstructs
its input exactly when the value-fixer is the identity (so nothing outside
the captured `href`/`src` values is touched), and rewrites a captured
attribute value through `fix`; every other event is returned unchanged. -/
theorem adjust_links_frame :
    (∀ lt d ttl path src_dir fallback_path fs d2,
      fix d path src_dir fallback_path fs = some d2 →
      adjust_links (.start (.link lt d ttl)) path src_dir fallback_path fs =
        some (.start (.link lt d2 ttl))) ∧
    (∀ lt d ttl path src_dir fallback_path fs d2,
      fix d path src_dir fallback_path fs = some d2 →
      adjust_links (.start (.image lt d ttl)) path src_dir fallback_path fs =
        some (.start (.image lt d2 ttl))) ∧
    (∀ h path src_dir fallback_path fs h2,
      fix_html h path src_dir fallback_path fs = some h2 →
      adjust_links (.html h) path src_dir fallback_path fs = some (.html h2)) ∧
    (∀ s path src_dir fallback_path fs,
      adjust_links (.text s) path src_dir fallback_path fs = some (.text s)) ∧
    (∀ tg path src_dir fallback_path fs,
      adjust_links (.end_ tg) path src_dir fallback_path fs = some (.end_ tg)) ∧
    (∀ k path src_dir fallback_path fs,
      adjust_links (.start (.codeBlock k)) path src_dir fallback_path fs =
        some (.start (.codeBlock k))) ∧
    (∀ n path src_dir fallback_path fs,
      adjust_links (.start (.otherTag n)) path src_dir fallback_path fs =
        some (.start (.otherTag n))) ∧
    (∀ n path src_dir fallback_path fs,
      adjust_links (.otherEvent n) path src_dir fallback_path fs =
        some (.otherEvent n)) ∧
    (∀ h, replaceAllHtml (fun v => some v) h = some h) ∧
    (∀ h path src_dir fallback_path fs,
      hasSub ['<', 'a', ' '] h = false → hasSub ['<', 'i', 'm', 'g', ' '] h = false →
      fix_html h path src_dir fallback_path fs = some h) ∧
    (∀ v v2 path src_dir fallback_path fs,
      v ≠ [] → v.all (fun c => !(c == dquote)) = true →
      fix v path src_dir fallback_path fs = some v2 →
      fix_html ('<' :: 'a' :: ' ' :: (hrefPat ++ (v ++ dquote :: '>' :: [])))
          path src_dir fallback_path fs =
        some ('<' :: 'a' :: ' ' :: (hrefPat ++ (v2 ++ dquote :: '>' :: [])))) := by
  refine ⟨?_, ?_, ?_, ?_, ?_, ?_, ?_, ?_, ?_, ?_, ?_⟩
  · intro lt d ttl path src_dir fallback_path fs d2 h
    rw [adjust_links, h]
    rfl
  · intro lt d ttl path src_dir fallback_path fs d2 h
    rw [adjust_links, h]
    rfl
  · intro h path src_dir fallback_path fs h2 hh
    rw [adjust_links, hh]
    rfl
  · intro s path src_dir fallback_path fs
    rfl
  · intro tg path src_dir fallback_path fs
    rfl
  · intro k path src_dir fallback_path fs
    rfl
  · intro n path src_dir fallback_path fs
    rfl
  · intro n path src_dir fallback_path fs
    rfl
  · intro h
    rw [replaceAllHtml, raGo_id h.length h (Nat.le_refl _) 0, List.drop_zero]
  · intro h path src_dir fallback_path fs ha hi
    rw [fix_html, replaceAllHtml, raGo_nomatch _ h ha hi 0, List.drop_zero]
  · intro v v2 path src_dir fallback_path fs hne hq hfix
    exact fix_html_href v v2 path src_dir fallback_path fs hne hq hfix

theorem adjust_links_frame_witness :
    adjust_links (.start (.link 0 ['a','.','m','d'] ['t'])) none none none (fun _ => false) =
      some (.start (.link 0 ['a','.','h','t','m','l'] ['t'])) ∧
    adjust_links (.start (.image 0 ['a','.','m','d'] ['t'])) none none none (fun _ => false) =
      some (.start (.image 0 ['a','.','h','t','m','l'] ['t'])) ∧
    adjust_links (.html ['h','i']) none none none (fun _ => false) =
      some (.html ['h','i']) ∧
    adjust_links (.text ['s']) none none none (fun _ => false) = some (.text ['s']) ∧
    adjust_links (.end_ (.link 0 ['d'] ['t'])) none none none (fun _ => false) =
      some (.end_ (.link 0 ['d'] ['t'])) ∧
    adjust_links (.start (.codeBlock CodeBlockKind.indented)) none none none (fun _ => false) =
      some (.start (.codeBlock CodeBlockKind.indented)) ∧
    adjust_links (.start (.otherTag 2)) none none none (fun _ => false) =
      some (.start (.otherTag 2)) ∧
    adjust_links (.otherEvent 3) none none none (fun _ => false) =
      some (.otherEvent 3) ∧
    replaceAllHtml (fun v => some v) ['<','a',' ','h','i'] = some ['<','a',' ','h','i'] ∧
    fix_html ['<','b','>','x','<','/','b','>'] none none none (fun _ => false) =
      some ['<','b','>','x','<','/','b','>'] ∧
    fix_html ('<' :: 'a' :: ' ' :: (hrefPat ++ (['x','.','m','d'] ++ dquote :: '>' :: [])))
        none none none (fun _ => false) =
      some ('<' :: 'a' :: ' ' ::
        (hrefPat ++ (['x','.','h','t','m','l'] ++ dquote :: '>' :: []))) :=
  ⟨adjust_links_frame.1 0 _ _ _ _ _ _ _ (by decide),
   adjust_links_frame.2.1 0 _ _ _ _ _ _ _ (by decide),
   adjust_links_frame.2.2.1 _ _ _ _ _ _ (by decide),
   adjust_links_frame.2.2.2.1 _ _ _ _ _,
   adjust_links_frame.2.2.2.2.1 _ _ _ _ _,
   adjust_links_frame.2.2.2.2.2.1 _ _ _ _ _,
   adjust_links_frame.2.2.2.2.2.2.1 _ _ _ _ _,
   adjust_links_frame.2.2.2.2.2.2.2.1 _ _ _ _ _,
   adjust_links_frame.2.2.2.2.2.2.2.2.1 _,
   adjust_links_frame.2.2.2.2.2.2.2.2.2.1 _ _ _ _ _ (by decide) (by decide),
   adjust_links_frame.2.2.2.2.2.2.2.2.2.2 _ _ _ _ _ _ (by decide) (by decide) (by decide)⟩

end MdBook
